import Mathlib

/-
Verification of the incremental text-to-speech delivery pipeline:
the sentence segmenter (js/sentence-buffer.js) and the utterance
scheduler (js/tts-queue.js), plus the hazard handler wiring them
together (js/app.js, captureAndAnalyze onHazard).

Modelling conventions:
* JS strings are modelled as `List Char`.  The character classes of the
  boundary pattern in addChunk — one or more of `. ! ?` followed by
  whitespace — are `isTerm` and `isWs`; `isWs` covers the ASCII
  whitespace characters matched by the pattern class (the inputs in the
  spec and code are ASCII).
* The global scan loop in `SentenceBuffer.addChunk` (lines 27-43) is
  embedded as the one-character-at-a-time automaton `stepM` with three
  states: accumulating ordinary text (`txt`, the chars since the end of
  the last consumed boundary, in reverse), inside a terminator run
  (`run`), and consuming the whitespace that closes a boundary (`ws`).
  Greedy matching of the terminator run and of the whitespace run, the
  per-match extraction `buffer.substring(lastIndex, match.index +
  match[1].length).trim()`, the `if (sentence)` guard, and the final
  truncation `buffer.substring(lastIndex)` all correspond directly;
  `remainderOf` reads the unconsumed buffer back out of the final state.
* `TTSQueue` carries both the scheduler's own fields (queue, isSpeaking,
  currentUtterance, audioUnlocked, voicesLoaded) and the state of the
  platform speech engine it drives (`synthInflight`: the single
  utterance currently submitted via synth.speak, `synthPaused`), plus a
  ghost trace `played` recording every text handed to synth.speak in
  order (the "playback attempts").  Event-driven control flow (onstart,
  onend, onerror, caller calls) is a step function over the event type
  `Ev`.  The asynchronous retry paths of `speak` (audio not yet
  unlocked, voices not yet loaded) park the text in `deferred`; re-entry
  of those continuations is not modelled — the theorems operate in the
  regime where the one-time unlock handshake has completed, where those
  branches are unreachable.  synth.cancel discards the in-flight
  utterance without delivering its events.
-/

/-- Characters treated as sentence terminators by the boundary pattern. -/
def isTerm (c : Char) : Bool :=
  c == '.' || c == '!' || c == '?'

/-- ASCII whitespace, the characters of the boundary pattern's whitespace
class that can occur in the modelled inputs (space, tab, newline,
carriage return, vertical tab, form feed). -/
def isWs (c : Char) : Bool :=
  c == ' ' || c == '\t' || c == '\n' || c == '\r' ||
  c == Char.ofNat 11 || c == Char.ofNat 12

/-- JS `String.prototype.trim`: drop leading and trailing whitespace. -/
def trimL (l : List Char) : List Char :=
  ((List.dropWhile isWs l).reverse.dropWhile isWs).reverse

/-- Convert a Lean string literal to the `List Char` model of JS strings. -/
def chars (s : String) : List Char := s.data

/-- Number of sentence-terminator boundaries in a text: positions where a
terminator character is immediately followed by a whitespace character.
Each maximal terminator run followed by whitespace contributes exactly
one such position (at the end of the run). -/
def countB : List Char → Nat
  | [] => 0
  | [_] => 0
  | a :: b :: r => (if isTerm a && isWs b then 1 else 0) + countB (b :: r)

/-- Contribution of an adjacent pair (first char, optional next char) to
`countB`; bookkeeping device for append/cons lemmas. -/
def pairTW (a : Char) : Option Char → Nat
  | some b => if isTerm a && isWs b then 1 else 0
  | none => 0

/-- `pairTW` lifted to an optional first component. -/
def pairLast : Option Char → Option Char → Nat
  | some a, o => pairTW a o
  | none, _ => 0

/-- State of the boundary-scanning automaton embedding the scan loop of
`addChunk`.  In `txt cur`, `cur` is the text consumed since the end of
the last recognized boundary, reversed.  In `run cur rn`, `rn` is the
current (reversed) run of terminator characters and `cur` the text
before it.  `ws` is the state inside the whitespace run that closes a
boundary. -/
inductive ScanMode where
  | txt (cur : List Char)
  | run (cur : List Char) (rn : List Char)
  | ws
deriving DecidableEq

/-- One character of the `addChunk` scan: extends the current segment,
extends or opens a terminator run, recognizes a boundary (terminator run
followed by whitespace) — emitting the trimmed sentence if non-empty,
exactly `buffer.substring(lastIndex, match.index + match[1].length).trim()`
behind the `if (sentence)` guard — or consumes boundary whitespace. -/
def stepM : ScanMode → Char → ScanMode × List (List Char)
  | ScanMode.txt cur, c =>
    if isTerm c then (ScanMode.run cur [c], [])
    else (ScanMode.txt (c :: cur), [])
  | ScanMode.run cur rn, c =>
    if isTerm c then (ScanMode.run cur (c :: rn), [])
    else if isWs c then
      (ScanMode.ws,
        if trimL ((rn ++ cur).reverse) = [] then []
        else [trimL ((rn ++ cur).reverse)])
    else (ScanMode.txt (c :: (rn ++ cur)), [])
  | ScanMode.ws, c =>
    if isWs c then (ScanMode.ws, [])
    else if isTerm c then (ScanMode.run [] [c], [])
    else (ScanMode.txt [c], [])

/-- Fold step threading the automaton state and the emitted sentences. -/
def scanStep (st : ScanMode × List (List Char)) (c : Char) :
    ScanMode × List (List Char) :=
  ((stepM st.1 c).1, st.2 ++ (stepM st.1 c).2)

/-- Run the scan from a given automaton state. -/
def scanFrom (m : ScanMode) (t : List Char) : ScanMode × List (List Char) :=
  t.foldl scanStep (m, [])

/-- One full scan of a buffer, as performed by each `addChunk` call. -/
def scanText (t : List Char) : ScanMode × List (List Char) :=
  scanFrom (ScanMode.txt []) t

/-- The unconsumed buffer left behind by the scan: text after the last
recognized boundary (whose trailing whitespace run was consumed by the
match, greedily). -/
def remainderOf : ScanMode → List Char
  | ScanMode.txt cur => cur.reverse
  | ScanMode.run cur rn => (rn ++ cur).reverse
  | ScanMode.ws => []

/-- The segmenter's sole state: the pending buffer (sentence-buffer.js). -/
structure SentenceBuffer where
  buffer : List Char
deriving DecidableEq

/-- `addChunk(chunk)`: no-op on an empty chunk (`!chunk` guard); otherwise
append the chunk to the buffer, extract every complete sentence found by
the boundary scan (emitted in left-to-right order), and keep only the
unconsumed remainder in the buffer. -/
def SentenceBuffer.addChunk (s : SentenceBuffer) (chunk : List Char) :
    SentenceBuffer × List (List Char) :=
  if chunk = [] then (s, [])
  else
    (⟨remainderOf (scanText (s.buffer ++ chunk)).1⟩,
      (scanText (s.buffer ++ chunk)).2)

/-- `flush()`: if the trimmed buffer is non-empty, emit it and clear the
buffer; otherwise do nothing (the buffer is not cleared). -/
def SentenceBuffer.flush (s : SentenceBuffer) :
    SentenceBuffer × List (List Char) :=
  if trimL s.buffer = [] then (s, [])
  else (⟨[]⟩, [trimL s.buffer])

/-- `reset()`: clear the buffer without emitting. -/
def SentenceBuffer.reset (_s : SentenceBuffer) : SentenceBuffer := ⟨[]⟩

/-- Fresh segmenter (constructor). -/
def initSB : SentenceBuffer := ⟨[]⟩

/-- Feed a sequence of chunks through `addChunk`, collecting every emitted
sentence in order. -/
def runChunks (s : SentenceBuffer) :
    List (List Char) → SentenceBuffer × List (List Char)
  | [] => (s, [])
  | c :: cs =>
    ((runChunks (s.addChunk c).1 cs).1,
      (s.addChunk c).2 ++ (runChunks (s.addChunk c).1 cs).2)

/-- Scheduler state (tts-queue.js) together with the platform speech
engine it drives and a ghost trace of playback attempts. -/
structure TTSQueue where
  queue : List (List Char)
  isSpeaking : Bool
  currentUtterance : Option (List Char)
  audioUnlocked : Bool
  voicesLoaded : Bool
  unlockPending : Bool
  synthInflight : Option (List Char)
  synthPaused : Bool
  played : List (List Char)
  deferred : List (List Char)
deriving DecidableEq

/-- `speak(text)`: if audio is not unlocked, hand the text to the
asynchronous unlock-then-retry continuation; if voices are not loaded,
hand it to the timed retry; otherwise cancel any stray platform
utterance, resume the engine if paused, and submit a new utterance
(recorded in the `played` trace).  `isSpeaking` is set only by the
utterance's onstart event, not here. -/
def TTSQueue.speak (s : TTSQueue) (text : List Char) : TTSQueue :=
  if s.audioUnlocked = false then { s with deferred := s.deferred ++ [text] }
  else if s.voicesLoaded = false then { s with deferred := s.deferred ++ [text] }
  else
    { s with synthInflight := some text
           , synthPaused := false
           , played := s.played ++ [text] }

/-- `processQueue()`: return if already speaking (no reentrancy) or if the
queue is empty; otherwise shift the head sentence and speak it. -/
def TTSQueue.processQueue (s : TTSQueue) : TTSQueue :=
  if s.isSpeaking then s
  else
    match s.queue with
    | [] => s
    | text :: rest => TTSQueue.speak { s with queue := rest } text

/-- `enqueue(text)`: ignore empty or whitespace-only input, push the
trimmed text to the tail of the queue, then process the queue. -/
def TTSQueue.enqueue (s : TTSQueue) (text : List Char) : TTSQueue :=
  if trimL text = [] then s
  else TTSQueue.processQueue { s with queue := s.queue ++ [trimL text] }

/-- onstart handler: mark the submitted utterance as speaking. -/
def TTSQueue.onStart (s : TTSQueue) : TTSQueue :=
  match s.synthInflight with
  | some t => { s with isSpeaking := true, currentUtterance := some t }
  | none => s

/-- `handleUtteranceEnd`: back to idle, then process the next queued item. -/
def TTSQueue.handleUtteranceEnd (s : TTSQueue) : TTSQueue :=
  TTSQueue.processQueue { s with isSpeaking := false, currentUtterance := none }

/-- `handleUtteranceError`: the error is swallowed — back to idle, then
continue processing the queue exactly as on a natural end. -/
def TTSQueue.handleUtteranceError (s : TTSQueue) : TTSQueue :=
  TTSQueue.processQueue { s with isSpeaking := false, currentUtterance := none }

/-- `stop()`: cancel any in-flight platform utterance, reset to idle,
empty the queue, resume the engine if paused. -/
def TTSQueue.stop (s : TTSQueue) : TTSQueue :=
  { s with synthInflight := none
         , isSpeaking := false
         , currentUtterance := none
         , queue := []
         , synthPaused := false }

/-- `clearQueue()`: empty the pending queue and change nothing else. -/
def TTSQueue.clearQueue (s : TTSQueue) : TTSQueue :=
  { s with queue := [] }

/-- `unlockAudio()`: if already unlocked, resolve immediately without
speaking anything; otherwise submit the near-silent placeholder
utterance and leave the promise pending.  Result components: new state,
whether the returned promise is already resolved, whether a placeholder
utterance was spoken. -/
def TTSQueue.unlockAudio (s : TTSQueue) : TTSQueue × Bool × Bool :=
  if s.audioUnlocked = true then (s, true, false)
  else ({ s with unlockPending := true }, false, true)

/-- onend handler of the unlock placeholder: set the flag, resolve. -/
def TTSQueue.unlockOnEnd (s : TTSQueue) : TTSQueue × Bool :=
  ({ s with audioUnlocked := true, unlockPending := false }, true)

/-- onerror handler of the unlock placeholder: even on failure, set the
flag and resolve (success-equivalent). -/
def TTSQueue.unlockOnError (s : TTSQueue) : TTSQueue × Bool :=
  ({ s with audioUnlocked := true, unlockPending := false }, true)

/-- Events driving the scheduler: caller calls (enqueue, stop, clearQueue,
hazard) and platform utterance events (onstart, onend, onerror). -/
inductive Ev where
  | enqueue (t : List Char)
  | utStart
  | utEnd
  | utError
  | stop
  | clearQueue
  | hazard (t : List Char)
deriving DecidableEq

/-- The warning text built by the hazard handler in app.js:
`Warning: ${data.text || 'Hazard detected'}`. -/
def warningText (t : List Char) : List Char :=
  chars "Warning: " ++ (if t = [] then chars "Hazard detected" else t)

/-- One event of the scheduler's event-driven control flow.  Platform
events fire only when an utterance is in flight; `hazard` performs the
scheduler part of the app-level hazard reaction (stop, then enqueue the
warning text). -/
def stepEv (s : TTSQueue) : Ev → TTSQueue
  | Ev.enqueue t => s.enqueue t
  | Ev.utStart => s.onStart
  | Ev.utEnd =>
    match s.synthInflight with
    | some _ => TTSQueue.handleUtteranceEnd { s with synthInflight := none }
    | none => s
  | Ev.utError =>
    match s.synthInflight with
    | some _ => TTSQueue.handleUtteranceError { s with synthInflight := none }
    | none => s
  | Ev.stop => s.stop
  | Ev.clearQueue => s.clearQueue
  | Ev.hazard t => (s.stop).enqueue (warningText t)

/-- Run a sequence of events. -/
def runEvents (s : TTSQueue) : List Ev → TTSQueue
  | [] => s
  | e :: es => runEvents (stepEv s e) es

/-- The app-level hazard reaction (app.js onHazard): stop the scheduler,
reset the segmenter, enqueue the warning-first hazard text. -/
def onHazard (q : TTSQueue) (sb : SentenceBuffer) (t : List Char) :
    TTSQueue × SentenceBuffer :=
  ((q.stop).enqueue (warningText t), sb.reset)

/-- Events that preempt or discard queued playback. -/
def isPreempt : Ev → Bool
  | Ev.stop => true
  | Ev.clearQueue => true
  | Ev.hazard _ => true
  | _ => false

/-- The trimmed non-empty texts handed to `enqueue` by a sequence of
events, in arrival order. -/
def arrivals : List Ev → List (List Char)
  | [] => []
  | Ev.enqueue t :: es =>
    (if trimL t = [] then [] else [trimL t]) ++ arrivals es
  | _ :: es => arrivals es

/-- Scheduler consistency tying the tracked speaking state to the
platform: whenever the scheduler believes an utterance is speaking, the
platform holds exactly that utterance (so there is at most one utterance
in the speaking state, and it is `currentUtterance`). -/
def TTSQueue.inv (s : TTSQueue) : Prop :=
  s.isSpeaking = true → s.synthInflight = s.currentUtterance

/-- A scheduler mid-playback: S1 speaking, S2 and S3 queued, audio
unlocked and voices loaded. -/
def exQ : TTSQueue :=
  { queue := [chars "S2", chars "S3"]
  , isSpeaking := true
  , currentUtterance := some (chars "S1")
  , audioUnlocked := true
  , voicesLoaded := true
  , unlockPending := false
  , synthInflight := some (chars "S1")
  , synthPaused := false
  , played := [chars "S1"]
  , deferred := [] }

/-- An idle scheduler after the unlock handshake. -/
def exIdle : TTSQueue :=
  { queue := []
  , isSpeaking := false
  , currentUtterance := none
  , audioUnlocked := true
  , voicesLoaded := true
  , unlockPending := false
  , synthInflight := none
  , synthPaused := false
  , played := []
  , deferred := [] }

/-- Normal form of an automaton state modulo text-leading whitespace of
the pending segment (whitespace that `trim` will remove from every
sentence and from the flushed remainder). -/
def normCur (cur : List Char) : List Char :=
  (List.dropWhile isWs cur.reverse).reverse

/-- State normal form: strip the removable leading whitespace of the
pending segment and identify the boundary-whitespace state with an empty
pending segment. -/
def normM : ScanMode → ScanMode
  | ScanMode.txt cur => ScanMode.txt (normCur cur)
  | ScanMode.run cur rn => ScanMode.run (normCur cur) rn
  | ScanMode.ws => ScanMode.txt []

/-- States arising from a scan: the pending segment contains no boundary
and does not start with a terminator, and a terminator run is non-empty
and all terminators. -/
def goodMode : ScanMode → Prop
  | ScanMode.txt cur =>
    countB cur.reverse = 0 ∧ ∀ c, cur.head? = some c → isTerm c = false
  | ScanMode.run cur rn =>
    (countB cur.reverse = 0 ∧ ∀ c, cur.head? = some c → isTerm c = false) ∧
      rn ≠ [] ∧ ∀ c ∈ rn, isTerm c = true
  | ScanMode.ws => True

/-- One terminator char standing in for a pending terminator run when
counting boundaries still to be closed. -/
def carryM : ScanMode → List Char
  | ScanMode.run _ _ => ['.']
  | _ => []

/-- Non-terminator last character, in the optional-value form used by the
whitespace-appending lemmas. -/
def lastNotTerm (l : List Char) : Bool :=
  match l.getLast? with
  | some c => !(isTerm c)
  | none => true

theorem ws_not_term {c : Char} (h : isWs c = true) : isTerm c = false := by
  simp only [isWs, Bool.or_eq_true, beq_iff_eq] at h
  rcases h with ((((h | h) | h) | h) | h) | h <;> subst h <;> decide

theorem term_not_ws {c : Char} (h : isTerm c = true) : isWs c = false := by
  simp only [isTerm, Bool.or_eq_true, beq_iff_eq] at h
  rcases h with (h | h) | h <;> subst h <;> decide

theorem dropWhile_dropWhile_append (p : Char → Bool) (u v : List Char) :
    List.dropWhile p (List.dropWhile p u ++ v) = List.dropWhile p (u ++ v) := by
  induction u with
  | nil => rfl
  | cons c u ih =>
    by_cases hc : p c = true
    · simp [List.dropWhile_cons, hc, ih]
    · simp only [Bool.not_eq_true] at hc
      simp [List.dropWhile_cons, hc]

theorem dropWhile_idem (p : Char → Bool) (u : List Char) :
    List.dropWhile p (List.dropWhile p u) = List.dropWhile p u := by
  have h := dropWhile_dropWhile_append p u []
  simpa using h

theorem normCur_reverse (cur : List Char) :
    (normCur cur).reverse = List.dropWhile isWs cur.reverse := by
  simp [normCur]

theorem normCur_append_norm (a cur : List Char) :
    normCur (a ++ normCur cur) = normCur (a ++ cur) := by
  unfold normCur
  rw [List.reverse_append, List.reverse_append, List.reverse_reverse,
    dropWhile_dropWhile_append]

theorem normCur_idem (cur : List Char) :
    normCur (normCur cur) = normCur cur := by
  have h := normCur_append_norm [] cur
  simpa using h

theorem normCur_cons_norm (c : Char) (cur : List Char) :
    normCur (c :: normCur cur) = normCur (c :: cur) := by
  have h := normCur_append_norm [c] cur
  simpa using h

theorem trimL_congr (u v : List Char) :
    trimL (List.dropWhile isWs u ++ v) = trimL (u ++ v) := by
  unfold trimL
  rw [dropWhile_dropWhile_append]

theorem trimL_dropWhile (l : List Char) :
    trimL (List.dropWhile isWs l) = trimL l := by
  have h := trimL_congr l []
  simpa using h

theorem trimL_nil : trimL [] = [] := rfl

theorem trimL_eq_nil_all_ws {u : List Char} (h : trimL u = []) :
    ∀ c ∈ u, isWs c = true := by
  unfold trimL at h
  rw [List.reverse_eq_nil_iff] at h
  rw [List.dropWhile_eq_nil_iff] at h
  intro c hc
  rcases (List.mem_append.mp ((List.takeWhile_append_dropWhile (p := isWs)
      (l := u)) ▸ hc)) with h1 | h2
  · exact List.mem_takeWhile_imp h1
  · exact h c (List.mem_reverse.mpr h2)

theorem countB_cons (c : Char) (u : List Char) :
    countB (c :: u) = pairTW c u.head? + countB u := by
  cases u <;> rfl

theorem countB_append (u v : List Char) :
    countB (u ++ v) = countB u + countB v + pairLast u.getLast? v.head? := by
  induction u with
  | nil => simp [countB, pairLast]
  | cons a u ih =>
    cases u with
    | nil =>
      cases v with
      | nil => simp [countB, pairLast, pairTW]
      | cons b v' =>
        simp only [List.singleton_append, countB, List.getLast?_singleton,
          pairLast, pairTW, List.head?]
        omega
    | cons b u' =>
      have hl : (a :: b :: u').getLast? = (b :: u').getLast? := by
        simp [List.getLast?_cons_cons]
      have h1 : (a :: b :: u') ++ v = a :: b :: (u' ++ v) := rfl
      have h2 : countB (a :: b :: (u' ++ v)) =
          (if isTerm a && isWs b then 1 else 0) + countB (b :: (u' ++ v)) := rfl
      have h3 : countB (a :: b :: u') =
          (if isTerm a && isWs b then 1 else 0) + countB (b :: u') := rfl
      simp only [List.cons_append] at ih
      rw [h1, h2, ih, hl, h3]
      omega

theorem countB_no_ws {u : List Char} (h : ∀ c ∈ u, isWs c = false) :
    countB u = 0 := by
  induction u with
  | nil => rfl
  | cons a u ih =>
    rw [countB_cons, ih (fun c hc => h c (List.mem_cons_of_mem a hc))]
    cases hu : u.head? with
    | none => rfl
    | some b =>
      have hb : b ∈ u := List.mem_of_mem_head? hu
      simp [pairTW, h b (List.mem_cons_of_mem a hb)]

theorem pairTW_term_congr {a b : Char} (ha : isTerm a = true)
    (hb : isTerm b = true) (o : Option Char) : pairTW a o = pairTW b o := by
  cases o <;> simp [pairTW, ha, hb]

theorem trimL_ne_nil_of_mem {u : List Char} {c : Char} (hm : c ∈ u)
    (hc : isWs c = false) : trimL u ≠ [] := by
  intro h
  have := trimL_eq_nil_all_ws h c hm
  rw [this] at hc
  exact Bool.false_ne_true hc.symm

theorem getLast?_reverse (l : List Char) :
    l.reverse.getLast? = l.head? := by
  cases l with
  | nil => rfl
  | cons c t =>
    rw [List.reverse_cons, List.getLast?_concat]
    rfl

theorem normCur_nil : normCur [] = [] := rfl

theorem normCur_ws_cons {c : Char} (hc : isWs c = true) :
    normCur [c] = [] := by
  simp [normCur, List.dropWhile, hc]

theorem step_norm (m : ScanMode) (c : Char) :
    (stepM m c).2 = (stepM (normM m) c).2 ∧
      normM (stepM m c).1 = normM (stepM (normM m) c).1 := by
  cases m with
  | txt cur =>
    by_cases ht : isTerm c = true
    · simp [stepM, normM, ht, normCur_idem]
    · simp only [Bool.not_eq_true] at ht
      simp [stepM, normM, ht, normCur_cons_norm]
  | run cur rn =>
    by_cases ht : isTerm c = true
    · simp [stepM, normM, ht, normCur_idem]
    · simp only [Bool.not_eq_true] at ht
      by_cases hw : isWs c = true
      · have hs : trimL ((normCur cur).reverse ++ rn.reverse) =
            trimL (cur.reverse ++ rn.reverse) := by
          rw [normCur_reverse, trimL_congr]
        simp [stepM, normM, ht, hw, hs]
      · simp only [Bool.not_eq_true] at hw
        have hn : normCur (c :: (rn ++ normCur cur)) =
            normCur (c :: (rn ++ cur)) := by
          rw [← List.cons_append, ← List.cons_append, normCur_append_norm]
        simp [stepM, normM, ht, hw, hn]
  | ws =>
    by_cases hw : isWs c = true
    · have ht := ws_not_term hw
      simp [stepM, normM, hw, ht, normCur_ws_cons hw]
    · simp only [Bool.not_eq_true] at hw
      by_cases ht : isTerm c = true
      · simp [stepM, normM, hw, ht, normCur_nil]
      · simp only [Bool.not_eq_true] at ht
        simp [stepM, normM, hw, ht]

theorem scan_out_acc (t : List Char) (m : ScanMode) (o : List (List Char)) :
    t.foldl scanStep (m, o) =
      ((t.foldl scanStep (m, []) ).1, o ++ (t.foldl scanStep (m, []) ).2) := by
  induction t generalizing m o with
  | nil => simp
  | cons c t ih =>
    show t.foldl scanStep (scanStep (m, o) c) = _
    rw [show scanStep (m, o) c = ((stepM m c).1, o ++ (stepM m c).2) from rfl]
    rw [ih]
    conv_rhs =>
      rw [show List.foldl scanStep (m, []) (c :: t) =
        List.foldl scanStep ((stepM m c).1, (stepM m c).2) t from by
          show List.foldl scanStep (scanStep (m, []) c) t = _
          rfl]
    rw [ih ((stepM m c).1) ((stepM m c).2)]
    simp [List.append_assoc]

theorem scanFrom_cons (m : ScanMode) (c : Char) (t : List Char) :
    scanFrom m (c :: t) =
      ((scanFrom (stepM m c).1 t).1,
        (stepM m c).2 ++ (scanFrom (stepM m c).1 t).2) := by
  show List.foldl scanStep (scanStep (m, []) c) t = _
  rw [show scanStep (m, []) c = ((stepM m c).1, (stepM m c).2) from by
    simp [scanStep]]
  exact scan_out_acc t (stepM m c).1 (stepM m c).2

theorem scanFrom_append (m : ScanMode) (t₁ t₂ : List Char) :
    scanFrom m (t₁ ++ t₂) =
      ((scanFrom (scanFrom m t₁).1 t₂).1,
        (scanFrom m t₁).2 ++ (scanFrom (scanFrom m t₁).1 t₂).2) := by
  show List.foldl scanStep (m, []) (t₁ ++ t₂) = _
  rw [List.foldl_append]
  show List.foldl scanStep ((scanFrom m t₁).1, (scanFrom m t₁).2) t₂ = _
  exact scan_out_acc t₂ (scanFrom m t₁).1 (scanFrom m t₁).2

theorem scan_norm (t : List Char) (m₁ m₂ : ScanMode)
    (h : normM m₁ = normM m₂) :
    (scanFrom m₁ t).2 = (scanFrom m₂ t).2 ∧
      normM (scanFrom m₁ t).1 = normM (scanFrom m₂ t).1 := by
  induction t generalizing m₁ m₂ with
  | nil => exact ⟨rfl, h⟩
  | cons c t ih =>
    rw [scanFrom_cons, scanFrom_cons]
    have s1 := step_norm m₁ c
    have s2 := step_norm m₂ c
    rw [h] at s1
    have hout : (stepM m₁ c).2 = (stepM m₂ c).2 := s1.1.trans s2.1.symm
    have hmode : normM (stepM m₁ c).1 = normM (stepM m₂ c).1 :=
      s1.2.trans s2.2.symm
    have ihr := ih (stepM m₁ c).1 (stepM m₂ c).1 hmode
    exact ⟨by rw [hout, ihr.1], ihr.2⟩

theorem pairLast_zero_left {o1 : Option Char} (o2 : Option Char)
    (h : ∀ a, o1 = some a → isTerm a = false) : pairLast o1 o2 = 0 := by
  cases o1 with
  | none => rfl
  | some a =>
    cases o2 with
    | none => rfl
    | some b => simp [pairLast, pairTW, h a rfl]

theorem pairLast_zero_ws (o1 : Option Char) {o2 : Option Char}
    (h : ∀ b, o2 = some b → isWs b = false) : pairLast o1 o2 = 0 := by
  cases o1 with
  | none => rfl
  | some a =>
    cases o2 with
    | none => rfl
    | some b => simp [pairLast, pairTW, h b rfl]

theorem good_step {m : ScanMode} (hm : goodMode m) (c : Char) :
    goodMode (stepM m c).1 := by
  cases m with
  | txt cur =>
    obtain ⟨hc0, hh⟩ := hm
    by_cases ht : isTerm c = true
    · simp only [stepM, ht, if_true]
      exact ⟨⟨hc0, hh⟩, by simp, by simp [ht]⟩
    · simp only [Bool.not_eq_true] at ht
      simp only [stepM, ht, Bool.false_eq_true, if_false]
      refine ⟨?_, ?_⟩
      · rw [List.reverse_cons, countB_append, hc0, countB, getLast?_reverse]
        rw [pairLast_zero_left _ hh]
      · intro d hd
        simp only [List.head?_cons, Option.some.injEq] at hd
        rw [← hd]
        exact ht
  | run cur rn =>
    obtain ⟨⟨hc0, hh⟩, hrn, hterm⟩ := hm
    by_cases ht : isTerm c = true
    · simp only [stepM, ht, if_true]
      refine ⟨⟨hc0, hh⟩, by simp, ?_⟩
      intro d hd
      rcases List.mem_cons.mp hd with h | h
      · rw [h]; exact ht
      · exact hterm d h
    · simp only [Bool.not_eq_true] at ht
      by_cases hw : isWs c = true
      · simp [stepM, ht, hw, goodMode]
      · simp only [Bool.not_eq_true] at hw
        simp only [stepM, ht, Bool.false_eq_true, if_false, hw, goodMode]
        refine ⟨?_, ?_⟩
        · rw [List.reverse_cons, List.reverse_append, countB_append,
            countB_append, hc0]
          have hrn0 : countB rn.reverse = 0 := by
            apply countB_no_ws
            intro d hd
            exact term_not_ws (hterm d (List.mem_reverse.mp hd))
          have hone : countB [c] = 0 := rfl
          rw [hrn0, hone, getLast?_reverse]
          rw [pairLast_zero_left _ hh]
          rw [pairLast_zero_ws]
          intro b hb
          simp only [List.head?_cons, Option.some.injEq] at hb
          rw [← hb]
          exact hw
        · intro d hd
          simp only [List.head?_cons, Option.some.injEq] at hd
          rw [← hd]
          exact ht
  | ws =>
    by_cases hw : isWs c = true
    · simp [stepM, hw, goodMode]
    · simp only [Bool.not_eq_true] at hw
      by_cases ht : isTerm c = true
      · simp only [stepM, hw, Bool.false_eq_true, if_false, ht, if_true]
        exact ⟨⟨rfl, by intro d hd; simp at hd⟩, by simp, by simp [ht]⟩
      · simp only [Bool.not_eq_true] at ht
        simp only [stepM, hw, Bool.false_eq_true, if_false, ht, goodMode]
        refine ⟨rfl, ?_⟩
        intro d hd
        simp only [List.head?_cons, Option.some.injEq] at hd
        rw [← hd]
        exact ht

theorem good_scan (t : List Char) {m : ScanMode} (hm : goodMode m) :
    goodMode (scanFrom m t).1 := by
  induction t generalizing m with
  | nil => exact hm
  | cons c t ih =>
    rw [scanFrom_cons]
    exact ih (good_step hm c)

theorem emit_ne_nil {cur rn : List Char} (hrn : rn ≠ [])
    (hterm : ∀ c ∈ rn, isTerm c = true) :
    trimL ((rn ++ cur).reverse) ≠ [] := by
  obtain ⟨d, rn', rfl⟩ := List.exists_cons_of_ne_nil hrn
  apply trimL_ne_nil_of_mem (c := d)
  · rw [List.mem_reverse]
    exact List.mem_append_left _ (List.mem_cons_self d rn')
  · exact term_not_ws (hterm d (List.mem_cons_self d rn'))

theorem noemit_remainder (t : List Char) (m : ScanMode) (hm : goodMode m)
    (hws : m ≠ ScanMode.ws) (hout : (scanFrom m t).2 = []) :
    remainderOf (scanFrom m t).1 = remainderOf m ++ t ∧
      (scanFrom m t).1 ≠ ScanMode.ws := by
  induction t generalizing m with
  | nil => exact ⟨by simp [scanFrom], hws⟩
  | cons c t ih =>
    rw [scanFrom_cons] at hout ⊢
    have he : (stepM m c).2 = [] := by
      rcases List.append_eq_nil.mp hout with ⟨h1, _⟩
      exact h1
    have hout' : (scanFrom (stepM m c).1 t).2 = [] := by
      rcases List.append_eq_nil.mp hout with ⟨_, h2⟩
      exact h2
    have hgood' : goodMode (stepM m c).1 := good_step hm c
    cases m with
    | txt cur =>
      by_cases ht : isTerm c = true
      · have hstep : stepM (ScanMode.txt cur) c = (ScanMode.run cur [c], []) := by
          simp [stepM, ht]
        rw [hstep] at hout' hgood' ⊢
        have := ih (ScanMode.run cur [c]) hgood' (by simp) hout'
        refine ⟨?_, this.2⟩
        rw [this.1]
        simp [remainderOf]
      · simp only [Bool.not_eq_true] at ht
        have hstep : stepM (ScanMode.txt cur) c = (ScanMode.txt (c :: cur), []) := by
          simp [stepM, ht]
        rw [hstep] at hout' hgood' ⊢
        have := ih (ScanMode.txt (c :: cur)) hgood' (by simp) hout'
        refine ⟨?_, this.2⟩
        rw [this.1]
        simp [remainderOf]
    | run cur rn =>
      obtain ⟨⟨hc0, hh⟩, hrn, hterm⟩ := hm
      by_cases ht : isTerm c = true
      · have hstep : stepM (ScanMode.run cur rn) c =
            (ScanMode.run cur (c :: rn), []) := by
          simp [stepM, ht]
        rw [hstep] at hout' hgood' ⊢
        have := ih (ScanMode.run cur (c :: rn)) hgood' (by simp) hout'
        refine ⟨?_, this.2⟩
        rw [this.1]
        simp [remainderOf]
      · simp only [Bool.not_eq_true] at ht
        by_cases hw : isWs c = true
        · exfalso
          have hstep : (stepM (ScanMode.run cur rn) c).2 =
              (if trimL ((rn ++ cur).reverse) = [] then []
               else [trimL ((rn ++ cur).reverse)]) := by
            simp [stepM, ht, hw]
          rw [hstep] at he
          rw [if_neg (emit_ne_nil hrn hterm)] at he
          exact List.cons_ne_nil _ _ he
        · simp only [Bool.not_eq_true] at hw
          have hstep : stepM (ScanMode.run cur rn) c =
              (ScanMode.txt (c :: (rn ++ cur)), []) := by
            simp [stepM, ht, hw]
          rw [hstep] at hout' hgood' ⊢
          have := ih (ScanMode.txt (c :: (rn ++ cur))) hgood' (by simp) hout'
          refine ⟨?_, this.2⟩
          rw [this.1]
          simp [remainderOf]
    | ws => exact absurd rfl hws

theorem trim_remainder_norm (m : ScanMode) :
    trimL (remainderOf (normM m)) = trimL (remainderOf m) := by
  cases m with
  | txt cur =>
    simp only [normM, remainderOf, normCur_reverse]
    exact trimL_dropWhile cur.reverse
  | run cur rn =>
    simp only [normM, remainderOf, List.reverse_append, normCur_reverse]
    exact trimL_congr cur.reverse rn.reverse
  | ws => rfl

theorem scan_run_terms (v : List Char) :
    ∀ (cur r : List Char), (∀ c ∈ v, isTerm c = true) →
      scanFrom (ScanMode.run cur r) v = (ScanMode.run cur (v.reverse ++ r), []) := by
  induction v with
  | nil => intro cur r _; simp [scanFrom]
  | cons c v ih =>
    intro cur r hterm
    have hc : isTerm c = true := hterm c (List.mem_cons_self c v)
    rw [scanFrom_cons]
    have hstep : stepM (ScanMode.run cur r) c = (ScanMode.run cur (c :: r), []) := by
      simp [stepM, hc]
    rw [hstep]
    have := ih cur (c :: r) (fun d hd => hterm d (List.mem_cons_of_mem c hd))
    rw [this]
    simp

theorem scan_txt_terms {v : List Char} (cur : List Char) (hv : v ≠ [])
    (hterm : ∀ c ∈ v, isTerm c = true) :
    scanFrom (ScanMode.txt cur) v = (ScanMode.run cur v.reverse, []) := by
  obtain ⟨c, v', rfl⟩ := List.exists_cons_of_ne_nil hv
  have hc : isTerm c = true := hterm c (List.mem_cons_self c v')
  rw [scanFrom_cons]
  have hstep : stepM (ScanMode.txt cur) c = (ScanMode.run cur [c], []) := by
    simp [stepM, hc]
  rw [hstep]
  rw [scan_run_terms v' cur [c]
    (fun d hd => hterm d (List.mem_cons_of_mem c hd))]
  simp

theorem getLast?_cons_ne (c : Char) {u : List Char} (h : u ≠ []) :
    (c :: u).getLast? = u.getLast? := by
  cases u with
  | nil => exact absurd rfl h
  | cons e u' => simp [List.getLast?_cons_cons]

theorem headNotWs_of_countB {c : Char} {u : List Char}
    (h : countB (c :: u) = 0) (hc : isTerm c = true) :
    ∀ d, u.head? = some d → isWs d = false := by
  intro d hd
  rw [countB_cons, hd] at h
  simp only [pairTW, hc, Bool.true_and] at h
  by_cases hw : isWs d = true
  · rw [hw] at h; simp at h
  · simpa using hw

theorem countB_cons_zero {c : Char} {u : List Char}
    (h : countB (c :: u) = 0) : countB u = 0 := by
  rw [countB_cons] at h
  omega

theorem scan_noBoundary (n : Nat) : ∀ (u : List Char), u.length ≤ n →
    (countB u = 0 →
      (∀ d, u.getLast? = some d → isTerm d = false) →
      ∀ cur₀, scanFrom (ScanMode.txt cur₀) u =
        (ScanMode.txt (u.reverse ++ cur₀), [])) ∧
    (countB u = 0 →
      (∀ d, u.head? = some d → isWs d = false) →
      (∀ d, u.getLast? = some d → isTerm d = false) →
      ∀ cur₀ r, r ≠ [] → (∀ c ∈ r, isTerm c = true) →
        scanFrom (ScanMode.run cur₀ r) u =
          (if u.isEmpty then ScanMode.run cur₀ r
           else ScanMode.txt (u.reverse ++ r ++ cur₀), [])) := by
  induction n with
  | zero =>
    intro u hu
    have : u = [] := List.eq_nil_of_length_eq_zero (Nat.le_zero.mp hu)
    subst this
    constructor
    · intro _ _ cur₀; simp [scanFrom]
    · intro _ _ _ cur₀ r _ _; simp [scanFrom]
  | succ n ih =>
    intro u hu
    cases u with
    | nil =>
      constructor
      · intro _ _ cur₀; simp [scanFrom]
      · intro _ _ _ cur₀ r _ _; simp [scanFrom]
    | cons c u' =>
      have hu' : u'.length ≤ n := by
        simp only [List.length_cons] at hu
        omega
      constructor
      · -- txt part
        intro h0 hlast cur₀
        have h0' : countB u' = 0 := countB_cons_zero h0
        by_cases ht : isTerm c = true
        · -- c opens a terminator run
          have hne : u' ≠ [] := by
            intro he
            subst he
            have := hlast c rfl
            rw [ht] at this
            simp at this
          have hlast' : ∀ d, u'.getLast? = some d → isTerm d = false := by
            intro d hd
            apply hlast
            rw [getLast?_cons_ne c hne]
            exact hd
          have hhead' : ∀ d, u'.head? = some d → isWs d = false :=
            headNotWs_of_countB h0 ht
          rw [scanFrom_cons]
          have hstep : stepM (ScanMode.txt cur₀) c = (ScanMode.run cur₀ [c], []) := by
            simp [stepM, ht]
          rw [hstep]
          rw [(ih u' hu').2 h0' hhead' hlast' cur₀ [c] (by simp) (by simp [ht])]
          have hne' : u'.isEmpty = false := by
            cases u' with
            | nil => exact absurd rfl hne
            | cons _ _ => rfl
          rw [hne']
          simp
        · simp only [Bool.not_eq_true] at ht
          rw [scanFrom_cons]
          have hstep : stepM (ScanMode.txt cur₀) c = (ScanMode.txt (c :: cur₀), []) := by
            simp [stepM, ht]
          rw [hstep]
          cases hne : u' with
          | nil =>
            simp [scanFrom]
          | cons e u'' =>
            rw [← hne]
            have hlast' : ∀ d, u'.getLast? = some d → isTerm d = false := by
              intro d hd
              apply hlast
              rw [getLast?_cons_ne c (by rw [hne]; simp)]
              exact hd
            rw [(ih u' hu').1 h0' hlast' (c :: cur₀)]
            simp
      · -- run part
        intro h0 hhead hlast cur₀ r hr hrterm
        have h0' : countB u' = 0 := countB_cons_zero h0
        have hcw : isWs c = false := hhead c rfl
        by_cases ht : isTerm c = true
        · -- run continues
          have hne : u' ≠ [] := by
            intro he
            subst he
            have := hlast c rfl
            rw [ht] at this
            simp at this
          have hlast' : ∀ d, u'.getLast? = some d → isTerm d = false := by
            intro d hd
            apply hlast
            rw [getLast?_cons_ne c hne]
            exact hd
          have hhead' : ∀ d, u'.head? = some d → isWs d = false :=
            headNotWs_of_countB h0 ht
          rw [scanFrom_cons]
          have hstep : stepM (ScanMode.run cur₀ r) c =
              (ScanMode.run cur₀ (c :: r), []) := by
            simp [stepM, ht]
          rw [hstep]
          rw [(ih u' hu').2 h0' hhead' hlast' cur₀ (c :: r) (by simp)
            (by
              intro d hd
              rcases List.mem_cons.mp hd with h | h
              · rw [h]; exact ht
              · exact hrterm d h)]
          have hne' : u'.isEmpty = false := by
            cases u' with
            | nil => exact absurd rfl hne
            | cons _ _ => rfl
          rw [hne']
          simp
        · simp only [Bool.not_eq_true] at ht
          -- run ends without a boundary: c is neither terminator nor whitespace
          rw [scanFrom_cons]
          have hstep : stepM (ScanMode.run cur₀ r) c =
              (ScanMode.txt (c :: (r ++ cur₀)), []) := by
            simp [stepM, ht, hcw]
          rw [hstep]
          cases hne : u' with
          | nil =>
            simp [scanFrom]
          | cons e u'' =>
            rw [← hne]
            have hlast' : ∀ d, u'.getLast? = some d → isTerm d = false := by
              intro d hd
              apply hlast
              rw [getLast?_cons_ne c (by rw [hne]; simp)]
              exact hd
            rw [(ih u' hu').1 h0' hlast' (c :: (r ++ cur₀))]
            simp

theorem scan_txt_rev {cur : List Char}
    (h0 : countB cur.reverse = 0)
    (hh : ∀ c, cur.head? = some c → isTerm c = false) :
    scanText cur.reverse = (ScanMode.txt cur, []) := by
  have hlast : ∀ d, cur.reverse.getLast? = some d → isTerm d = false := by
    intro d hd
    rw [getLast?_reverse] at hd
    exact hh d hd
  have := (scan_noBoundary cur.reverse.length cur.reverse (le_refl _)).1
    h0 hlast []
  rw [scanText, this]
  simp

theorem rescan {m : ScanMode} (hm : goodMode m) :
    (scanText (remainderOf m)).2 = [] ∧
      normM (scanText (remainderOf m)).1 = normM m := by
  cases m with
  | txt cur =>
    obtain ⟨h0, hh⟩ := hm
    rw [remainderOf, scan_txt_rev h0 hh]
    exact ⟨rfl, rfl⟩
  | run cur rn =>
    obtain ⟨⟨h0, hh⟩, hrn, hterm⟩ := hm
    rw [remainderOf, List.reverse_append]
    rw [scanText, scanFrom_append]
    have h1 : scanFrom (ScanMode.txt []) cur.reverse = (ScanMode.txt cur, []) :=
      scan_txt_rev h0 hh
    rw [h1]
    have hrne : rn.reverse ≠ [] := by
      simpa using hrn
    have h2 : scanFrom (ScanMode.txt cur) rn.reverse =
        (ScanMode.run cur rn.reverse.reverse, []) :=
      scan_txt_terms cur hrne (fun c hc => hterm c (List.mem_reverse.mp hc))
    rw [h2]
    simp
  | ws =>
    refine ⟨rfl, ?_⟩
    rfl

theorem pairTW_zero_of_not_term {a : Char} (h : isTerm a = false)
    (o : Option Char) : pairTW a o = 0 := by
  cases o <;> simp [pairTW, h]

theorem isTerm_dot : isTerm '.' = true := by decide

theorem scan_count (t : List Char) :
    ∀ m, goodMode m → (scanFrom m t).2.length = countB (carryM m ++ t) := by
  induction t with
  | nil =>
    intro m hm
    cases m <;> simp [scanFrom, carryM, countB]
  | cons c t ih =>
    intro m hm
    rw [scanFrom_cons, List.length_append]
    cases m with
    | txt cur =>
      by_cases ht : isTerm c = true
      · have hstep : stepM (ScanMode.txt cur) c = (ScanMode.run cur [c], []) := by
          simp [stepM, ht]
        have hgood2 : goodMode (ScanMode.run cur [c]) := by
          have h := good_step hm c
          rw [hstep] at h
          exact h
        rw [hstep, ih _ hgood2]
        simp only [List.length_nil, carryM, List.nil_append, List.cons_append,
          Nat.zero_add]
        rw [countB_cons, countB_cons,
          pairTW_term_congr isTerm_dot ht t.head?]
      · simp only [Bool.not_eq_true] at ht
        have hstep : stepM (ScanMode.txt cur) c = (ScanMode.txt (c :: cur), []) := by
          simp [stepM, ht]
        have hgood2 : goodMode (ScanMode.txt (c :: cur)) := by
          have h := good_step hm c
          rw [hstep] at h
          exact h
        rw [hstep, ih _ hgood2]
        simp only [List.length_nil, carryM, List.nil_append, Nat.zero_add]
        rw [countB_cons, pairTW_zero_of_not_term ht]
        omega
    | run cur rn =>
      obtain ⟨hgc, hrn, hterm⟩ := hm
      by_cases ht : isTerm c = true
      · have hstep : stepM (ScanMode.run cur rn) c =
            (ScanMode.run cur (c :: rn), []) := by
          simp [stepM, ht]
        have hgood2 : goodMode (ScanMode.run cur (c :: rn)) := by
          have h := good_step (m := ScanMode.run cur rn) ⟨hgc, hrn, hterm⟩ c
          rw [hstep] at h
          exact h
        rw [hstep, ih _ hgood2]
        simp only [List.length_nil, carryM, List.cons_append, Nat.zero_add,
          List.nil_append]
        rw [countB_cons (c := '.') (u := c :: t),
          countB_cons (c := '.') (u := t), countB_cons (c := c) (u := t),
          pairTW_term_congr isTerm_dot ht t.head?]
        have hp : pairTW '.' (c :: t).head? = 0 := by
          simp [pairTW, List.head?_cons, term_not_ws ht]
        rw [hp]
        omega
      · simp only [Bool.not_eq_true] at ht
        by_cases hw : isWs c = true
        · have hne : ¬ trimL (cur.reverse ++ rn.reverse) = [] := by
            rw [← List.reverse_append]
            exact emit_ne_nil hrn hterm
          have hstep : stepM (ScanMode.run cur rn) c =
              (ScanMode.ws, [trimL (cur.reverse ++ rn.reverse)]) := by
            simp [stepM, ht, hw, hne]
          rw [hstep, ih ScanMode.ws trivial]
          simp only [List.length_singleton, carryM, List.nil_append,
            List.cons_append]
          rw [countB_cons (c := '.') (u := c :: t),
            countB_cons (c := c) (u := t)]
          have hp : pairTW '.' (c :: t).head? = 1 := by
            simp [pairTW, List.head?_cons, isTerm_dot, hw]
          rw [hp, pairTW_zero_of_not_term (ws_not_term hw)]
          omega
        · simp only [Bool.not_eq_true] at hw
          have hstep : stepM (ScanMode.run cur rn) c =
              (ScanMode.txt (c :: (rn ++ cur)), []) := by
            simp [stepM, ht, hw]
          have hgood2 : goodMode (ScanMode.txt (c :: (rn ++ cur))) := by
            have h := good_step (m := ScanMode.run cur rn) ⟨hgc, hrn, hterm⟩ c
            rw [hstep] at h
            exact h
          rw [hstep, ih _ hgood2]
          simp only [List.length_nil, carryM, List.nil_append,
            List.cons_append, Nat.zero_add]
          rw [countB_cons (c := '.') (u := c :: t),
            countB_cons (c := c) (u := t)]
          have hp : pairTW '.' (c :: t).head? = 0 := by
            simp [pairTW, List.head?_cons, hw]
          rw [hp, pairTW_zero_of_not_term ht]
          omega
    | ws =>
      by_cases hw : isWs c = true
      · have hstep : stepM ScanMode.ws c = (ScanMode.ws, []) := by
          simp [stepM, hw]
        rw [hstep, ih ScanMode.ws trivial]
        simp only [List.length_nil, carryM, List.nil_append, Nat.zero_add]
        rw [countB_cons, pairTW_zero_of_not_term (ws_not_term hw)]
        omega
      · simp only [Bool.not_eq_true] at hw
        by_cases ht : isTerm c = true
        · have hstep : stepM ScanMode.ws c = (ScanMode.run [] [c], []) := by
            simp [stepM, hw, ht]
          have hgood2 : goodMode (ScanMode.run [] [c]) := by
            have h := good_step (m := ScanMode.ws) trivial c
            rw [hstep] at h
            exact h
          rw [hstep, ih _ hgood2]
          simp only [List.length_nil, carryM, List.nil_append, Nat.zero_add,
            List.cons_append]
          rw [countB_cons, countB_cons,
            pairTW_term_congr isTerm_dot ht t.head?]
        · simp only [Bool.not_eq_true] at ht
          have hstep : stepM ScanMode.ws c = (ScanMode.txt [c], []) := by
            simp [stepM, hw, ht]
          have hgood2 : goodMode (ScanMode.txt [c]) := by
            have h := good_step (m := ScanMode.ws) trivial c
            rw [hstep] at h
            exact h
          rw [hstep, ih _ hgood2]
          simp only [List.length_nil, carryM, List.nil_append, Nat.zero_add]
          rw [countB_cons, pairTW_zero_of_not_term ht]
          omega

theorem goodMode_init : goodMode (ScanMode.txt []) := by
  refine ⟨rfl, ?_⟩
  intro c hc
  simp at hc

theorem trimL_buffer_eq {b : List Char} {m : ScanMode}
    (hq : (scanText b).2 = []) (hrel : normM (scanText b).1 = normM m) :
    trimL b = trimL (remainderOf m) := by
  have hrem := noemit_remainder b (ScanMode.txt []) goodMode_init
    (by simp) hq
  have h1 : remainderOf (scanText b).1 = b := by
    have := hrem.1
    simpa [remainderOf] using this
  calc trimL b = trimL (remainderOf (scanText b).1) := by rw [h1]
    _ = trimL (remainderOf (normM (scanText b).1)) :=
        (trim_remainder_norm _).symm
    _ = trimL (remainderOf (normM m)) := by rw [hrel]
    _ = trimL (remainderOf m) := trim_remainder_norm m

theorem inc_batch (chunks : List (List Char)) :
    ∀ (b : List Char) (m : ScanMode), goodMode m →
      (scanText b).2 = [] → normM (scanText b).1 = normM m →
      (runChunks ⟨b⟩ chunks).2 = (scanFrom m chunks.flatten).2 ∧
        trimL (runChunks ⟨b⟩ chunks).1.buffer =
          trimL (remainderOf (scanFrom m chunks.flatten).1) := by
  induction chunks with
  | nil =>
    intro b m _ hq hrel
    exact ⟨rfl, trimL_buffer_eq hq hrel⟩
  | cons ck cs ih =>
    intro b m hg hq hrel
    by_cases hck : ck = []
    · subst hck
      have hadd : SentenceBuffer.addChunk ⟨b⟩ [] = (⟨b⟩, []) := by
        simp [SentenceBuffer.addChunk]
      have hres := ih b m hg hq hrel
      constructor
      · show (SentenceBuffer.addChunk ⟨b⟩ []).2 ++
          (runChunks (SentenceBuffer.addChunk ⟨b⟩ []).1 cs).2 = _
        rw [hadd]
        simpa [List.flatten_cons] using hres.1
      · show trimL (runChunks (SentenceBuffer.addChunk ⟨b⟩ []).1 cs).1.buffer = _
        rw [hadd]
        simpa [List.flatten_cons] using hres.2
    · have hadd : SentenceBuffer.addChunk ⟨b⟩ ck =
          (⟨remainderOf (scanText (b ++ ck)).1⟩, (scanText (b ++ ck)).2) := by
        simp [SentenceBuffer.addChunk, hck]
      have hsp : scanText (b ++ ck) =
          ((scanFrom (scanText b).1 ck).1,
            (scanText b).2 ++ (scanFrom (scanText b).1 ck).2) :=
        scanFrom_append (ScanMode.txt []) b ck
      have hout1 : (scanText (b ++ ck)).2 = (scanFrom (scanText b).1 ck).2 := by
        rw [hsp, hq]
        simp
      have hmode1 : (scanText (b ++ ck)).1 = (scanFrom (scanText b).1 ck).1 := by
        rw [hsp]
      have hgood1 : goodMode (scanText b).1 := good_scan b goodMode_init
      have hgood1' : goodMode (scanFrom (scanText b).1 ck).1 :=
        good_scan ck hgood1
      have hsn := scan_norm ck (scanText b).1 m hrel
      have hres := rescan hgood1'
      have hreln : normM (scanText (remainderOf (scanFrom (scanText b).1 ck).1)).1 =
          normM (scanFrom m ck).1 := hres.2.trans hsn.2
      have hgoodm : goodMode (scanFrom m ck).1 := good_scan ck hg
      have hih := ih (remainderOf (scanFrom (scanText b).1 ck).1)
        (scanFrom m ck).1 hgoodm hres.1 hreln
      have hflat : (ck :: cs).flatten = ck ++ cs.flatten := List.flatten_cons
      have hspm : scanFrom m (ck ++ cs.flatten) =
          ((scanFrom (scanFrom m ck).1 cs.flatten).1,
            (scanFrom m ck).2 ++ (scanFrom (scanFrom m ck).1 cs.flatten).2) :=
        scanFrom_append m ck cs.flatten
      constructor
      · show (SentenceBuffer.addChunk ⟨b⟩ ck).2 ++
          (runChunks (SentenceBuffer.addChunk ⟨b⟩ ck).1 cs).2 = _
        rw [hadd]
        simp only
        rw [hout1, hmode1, hsn.1, hih.1, hflat, hspm]
      · show trimL (runChunks (SentenceBuffer.addChunk ⟨b⟩ ck).1 cs).1.buffer = _
        rw [hadd]
        simp only
        rw [hmode1, hih.2, hflat, hspm]

theorem run_out_eq (chunks : List (List Char)) :
    (runChunks initSB chunks).2 = (scanText chunks.flatten).2 ∧
      trimL (runChunks initSB chunks).1.buffer =
        trimL (remainderOf (scanText chunks.flatten).1) :=
  inc_batch chunks [] (ScanMode.txt []) goodMode_init rfl rfl

theorem flush_eq (s : SentenceBuffer) :
    (SentenceBuffer.flush s).2 =
      if trimL s.buffer = [] then [] else [trimL s.buffer] := by
  unfold SentenceBuffer.flush
  split <;> rfl

theorem countB_no_term {u : List Char} (h : ∀ c ∈ u, isTerm c = false) :
    countB u = 0 := by
  induction u with
  | nil => rfl
  | cons a u ih =>
    rw [countB_cons, ih (fun c hc => h c (List.mem_cons_of_mem a hc)),
      pairTW_zero_of_not_term (h a (List.mem_cons_self a u))]

theorem countB_append_ws {b w : List Char} (hb : countB b = 0)
    (hl : lastNotTerm b = true) (hw : ∀ c ∈ w, isWs c = true) :
    countB (b ++ w) = 0 := by
  rw [countB_append, hb]
  rw [countB_no_term (fun c hc => ws_not_term (hw c hc))]
  rw [pairLast_zero_left]
  intro a ha
  unfold lastNotTerm at hl
  rw [ha] at hl
  simpa using hl

theorem addChunk_ws (s : SentenceBuffer) (w : List Char)
    (hw : w.all isWs = true) (hb : countB s.buffer = 0)
    (hl : lastNotTerm s.buffer = true) :
    (s.addChunk w).2 = [] ∧ (s.addChunk w).1.buffer = s.buffer ++ w := by
  have hw' : ∀ c ∈ w, isWs c = true := fun c hc => List.all_eq_true.mp hw c hc
  by_cases hwe : w = []
  · subst hwe
    constructor
    · simp [SentenceBuffer.addChunk]
    · simp [SentenceBuffer.addChunk]
  · have hc0 : countB (s.buffer ++ w) = 0 := countB_append_ws hb hl hw'
    have hlen : (scanText (s.buffer ++ w)).2.length = 0 := by
      show (scanFrom (ScanMode.txt []) (s.buffer ++ w)).2.length = 0
      rw [scan_count (s.buffer ++ w) (ScanMode.txt []) goodMode_init]
      simpa [carryM] using hc0
    have hout : (scanText (s.buffer ++ w)).2 = [] :=
      List.length_eq_zero.mp hlen
    have hrem := noemit_remainder (s.buffer ++ w) (ScanMode.txt [])
      goodMode_init (by simp) hout
    constructor
    · simp [SentenceBuffer.addChunk, hwe, hout]
    · have h1 : remainderOf (scanText (s.buffer ++ w)).1 = s.buffer ++ w := by
        simpa [remainderOf] using hrem.1
      simp [SentenceBuffer.addChunk, hwe, h1]

/-- C1, no fragment loss: over any sequence of `addChunk` calls, the number
of sentences emitted before `flush()` equals the number of
sentence-terminator boundaries (a terminator run followed by whitespace)
in the concatenated text, and `flush()` emits exactly the trimmed
remainder of the concatenation after the last boundary (nothing if that
remainder trims to empty).  In particular `"Ahead. Turn "` then
`"left at the corner."` then `flush()` emits exactly `"Ahead."` and
`"Turn left at the corner."`, in that order. -/
theorem c1_no_fragment_loss (chunks : List (List Char)) :
    (runChunks initSB chunks).2.length = countB chunks.flatten ∧
    (SentenceBuffer.flush (runChunks initSB chunks).1).2 =
      (if trimL (remainderOf (scanText chunks.flatten).1) = [] then []
       else [trimL (remainderOf (scanText chunks.flatten).1)]) ∧
    (runChunks initSB [chars "Ahead. Turn ", chars "left at the corner."]).2 ++
      (SentenceBuffer.flush
        (runChunks initSB
          [chars "Ahead. Turn ", chars "left at the corner."]).1).2 =
      [chars "Ahead.", chars "Turn left at the corner."] := by
  refine ⟨?_, ?_, by decide⟩
  · rw [(run_out_eq chunks).1]
    show (scanFrom (ScanMode.txt []) chunks.flatten).2.length = _
    rw [scan_count _ _ goodMode_init]
    simp [carryM]
  · rw [flush_eq, (run_out_eq chunks).2]

/-- C9, idempotent flush: two consecutive `flush()` calls with no
intervening `addChunk` emit at most one sentence in total; the second
call emits nothing, and after a `flush()` that emitted, the buffer is
empty. -/
theorem c9_idempotent_flush (s : SentenceBuffer) :
    ((SentenceBuffer.flush s).2 ++
      (SentenceBuffer.flush (SentenceBuffer.flush s).1).2).length ≤ 1 ∧
    (SentenceBuffer.flush (SentenceBuffer.flush s).1).2 = [] ∧
    ((SentenceBuffer.flush s).2 ≠ [] →
      (SentenceBuffer.flush s).1.buffer = []) := by
  by_cases h : trimL s.buffer = []
  · simp [SentenceBuffer.flush, h]
  · simp [SentenceBuffer.flush, h, trimL_nil]

/-- C10, flush on a trim-empty buffer: whenever the buffer trims to
empty — including a non-empty, whitespace-only buffer — `flush()` emits
nothing and leaves the buffer exactly as it was (the buffer is cleared
only by a `flush()` that emits), so a later `addChunk` behaves exactly
as it would have on the unflushed state, with the surviving whitespace
sitting in front of the chunk text in the scanned buffer. -/
theorem c10_flush_trim_empty (s : SentenceBuffer)
    (h : trimL s.buffer = []) :
    SentenceBuffer.flush s = (s, []) ∧
    ∀ c, SentenceBuffer.addChunk (SentenceBuffer.flush s).1 c =
      SentenceBuffer.addChunk s c := by
  have h1 : SentenceBuffer.flush s = (s, []) := by
    simp [SentenceBuffer.flush, h]
  exact ⟨h1, fun c => by rw [h1]⟩

theorem c10_witness :
    SentenceBuffer.flush ⟨chars "   "⟩ = (⟨chars "   "⟩, []) :=
  (c10_flush_trim_empty ⟨chars "   "⟩ (by decide)).1

/-- C2 as stated is false on the code: a whitespace-only fragment is not
ignored.  From a fresh segmenter, `addChunk("Hi.")` buffers `"Hi."`;
the following `addChunk("   ")` completes the boundary, emits `"Hi."`,
and also visibly changes the buffer of a fresh segmenter. -/
theorem c2_counterexample :
    (SentenceBuffer.addChunk
      (SentenceBuffer.addChunk initSB (chars "Hi.")).1 (chars "   ")).2 =
      [chars "Hi."] ∧
    (SentenceBuffer.addChunk initSB (chars "   ")).1.buffer ≠
      initSB.buffer := by
  decide

/-- C2, amended: `addChunk("")` is a no-op — no emission, no state
change.  A whitespace-only fragment never triggers an emission and is
appended to the buffer (observably changing it) provided the current
buffer contains no boundary and does not end in a terminator; when the
buffer ends in a pending terminator run, the whitespace completes the
boundary and the buffered sentence is emitted. -/
theorem c2_empty_and_ws_chunks (s : SentenceBuffer) (w : List Char)
    (hw : w.all isWs = true) (hb : countB s.buffer = 0)
    (hl : lastNotTerm s.buffer = true) :
    SentenceBuffer.addChunk s [] = (s, []) ∧
    (s.addChunk w).2 = [] ∧
    (s.addChunk w).1.buffer = s.buffer ++ w :=
  ⟨by simp [SentenceBuffer.addChunk], (addChunk_ws s w hw hb hl).1,
    (addChunk_ws s w hw hb hl).2⟩

theorem c2_witness :
    (SentenceBuffer.addChunk ⟨chars "Hi"⟩ (chars "   ")).2 = [] ∧
    (SentenceBuffer.addChunk ⟨chars "Hi"⟩ (chars "   ")).1.buffer =
      chars "Hi" ++ chars "   " :=
  ⟨(c2_empty_and_ws_chunks ⟨chars "Hi"⟩ (chars "   ") (by decide) (by decide)
      (by decide)).2.1,
   (c2_empty_and_ws_chunks ⟨chars "Hi"⟩ (chars "   ") (by decide) (by decide)
      (by decide)).2.2⟩

theorem speak_unlocked_eq {s : TTSQueue} (hu : s.audioUnlocked = true)
    (hv : s.voicesLoaded = true) (t : List Char) :
    TTSQueue.speak s t =
      { s with synthInflight := some t, synthPaused := false,
               played := s.played ++ [t] } := by
  unfold TTSQueue.speak
  rw [hu, hv]
  rfl

theorem processQueue_speaking {s : TTSQueue} (h : s.isSpeaking = true) :
    TTSQueue.processQueue s = s := by
  unfold TTSQueue.processQueue
  rw [h]
  rfl

theorem processQueue_idle_nil {s : TTSQueue} (h : s.isSpeaking = false)
    (hq : s.queue = []) : TTSQueue.processQueue s = s := by
  unfold TTSQueue.processQueue
  rw [h, hq]
  rfl

theorem processQueue_idle_cons {s : TTSQueue} {a : List Char}
    {q : List (List Char)} (h : s.isSpeaking = false) (hq : s.queue = a :: q) :
    TTSQueue.processQueue s = TTSQueue.speak { s with queue := q } a := by
  unfold TTSQueue.processQueue
  rw [h, hq]
  rfl

theorem enqueue_trim_nil {s : TTSQueue} {t : List Char} (h : trimL t = []) :
    TTSQueue.enqueue s t = s := by
  unfold TTSQueue.enqueue
  rw [h]
  rfl

theorem enqueue_eq {s : TTSQueue} {t : List Char} (h : ¬ trimL t = []) :
    TTSQueue.enqueue s t =
      TTSQueue.processQueue { s with queue := s.queue ++ [trimL t] } := by
  unfold TTSQueue.enqueue
  rw [if_neg h]

theorem onStart_some {s : TTSQueue} {u : List Char}
    (hin : s.synthInflight = some u) :
    TTSQueue.onStart s =
      { s with isSpeaking := true, currentUtterance := some u } := by
  unfold TTSQueue.onStart
  rw [hin]

theorem onStart_none {s : TTSQueue} (hin : s.synthInflight = none) :
    TTSQueue.onStart s = s := by
  unfold TTSQueue.onStart
  rw [hin]

theorem stepEv_utEnd_some {s : TTSQueue} {u : List Char}
    (hin : s.synthInflight = some u) :
    stepEv s Ev.utEnd =
      TTSQueue.handleUtteranceEnd { s with synthInflight := none } := by
  simp only [stepEv, hin]

theorem stepEv_utEnd_none {s : TTSQueue} (hin : s.synthInflight = none) :
    stepEv s Ev.utEnd = s := by
  simp only [stepEv, hin]

theorem stepEv_utError_some {s : TTSQueue} {u : List Char}
    (hin : s.synthInflight = some u) :
    stepEv s Ev.utError =
      TTSQueue.handleUtteranceError { s with synthInflight := none } := by
  simp only [stepEv, hin]

theorem stepEv_utError_none {s : TTSQueue} (hin : s.synthInflight = none) :
    stepEv s Ev.utError = s := by
  simp only [stepEv, hin]

theorem speak_proj (s : TTSQueue) (t : List Char) :
    (TTSQueue.speak s t).audioUnlocked = s.audioUnlocked ∧
    (TTSQueue.speak s t).voicesLoaded = s.voicesLoaded ∧
    (TTSQueue.speak s t).isSpeaking = s.isSpeaking ∧
    (TTSQueue.speak s t).currentUtterance = s.currentUtterance := by
  unfold TTSQueue.speak
  split
  · exact ⟨rfl, rfl, rfl, rfl⟩
  · split
    · exact ⟨rfl, rfl, rfl, rfl⟩
    · exact ⟨rfl, rfl, rfl, rfl⟩

theorem processQueue_proj (s : TTSQueue) :
    (TTSQueue.processQueue s).audioUnlocked = s.audioUnlocked ∧
    (TTSQueue.processQueue s).voicesLoaded = s.voicesLoaded ∧
    (TTSQueue.processQueue s).isSpeaking = s.isSpeaking ∧
    (TTSQueue.processQueue s).currentUtterance = s.currentUtterance := by
  cases hsp : s.isSpeaking with
  | true => rw [processQueue_speaking hsp]; exact ⟨rfl, rfl, hsp, rfl⟩
  | false =>
    cases hq : s.queue with
    | nil => rw [processQueue_idle_nil hsp hq]; exact ⟨rfl, rfl, hsp, rfl⟩
    | cons a q =>
      rw [processQueue_idle_cons hsp hq]
      exact ⟨(speak_proj _ _).1, (speak_proj _ _).2.1,
        ((speak_proj _ _).2.2.1).trans hsp, (speak_proj _ _).2.2.2⟩

theorem enqueue_proj (s : TTSQueue) (t : List Char) :
    (TTSQueue.enqueue s t).audioUnlocked = s.audioUnlocked ∧
    (TTSQueue.enqueue s t).voicesLoaded = s.voicesLoaded := by
  by_cases h : trimL t = []
  · rw [enqueue_trim_nil h]; exact ⟨rfl, rfl⟩
  · rw [enqueue_eq h]
    exact ⟨(processQueue_proj _).1, (processQueue_proj _).2.1⟩

theorem stepEv_flags (s : TTSQueue) (e : Ev) :
    (stepEv s e).audioUnlocked = s.audioUnlocked ∧
    (stepEv s e).voicesLoaded = s.voicesLoaded := by
  cases e with
  | enqueue t => exact enqueue_proj s t
  | utStart =>
    show (TTSQueue.onStart s).audioUnlocked = _ ∧
      (TTSQueue.onStart s).voicesLoaded = _
    cases hin : s.synthInflight with
    | none => rw [onStart_none hin]; exact ⟨rfl, rfl⟩
    | some u => rw [onStart_some hin]; exact ⟨rfl, rfl⟩
  | utEnd =>
    cases hin : s.synthInflight with
    | none => rw [stepEv_utEnd_none hin]; exact ⟨rfl, rfl⟩
    | some u =>
      rw [stepEv_utEnd_some hin]
      unfold TTSQueue.handleUtteranceEnd
      exact ⟨(processQueue_proj _).1, (processQueue_proj _).2.1⟩
  | utError =>
    cases hin : s.synthInflight with
    | none => rw [stepEv_utError_none hin]; exact ⟨rfl, rfl⟩
    | some u =>
      rw [stepEv_utError_some hin]
      unfold TTSQueue.handleUtteranceError
      exact ⟨(processQueue_proj _).1, (processQueue_proj _).2.1⟩
  | stop => exact ⟨rfl, rfl⟩
  | clearQueue => exact ⟨rfl, rfl⟩
  | hazard t =>
    show ((TTSQueue.stop s).enqueue (warningText t)).audioUnlocked = _ ∧
      ((TTSQueue.stop s).enqueue (warningText t)).voicesLoaded = _
    exact ⟨(enqueue_proj _ _).1, (enqueue_proj _ _).2⟩

theorem speak_conserve {s : TTSQueue} (hu : s.audioUnlocked = true)
    (hv : s.voicesLoaded = true) (t : List Char) :
    (TTSQueue.speak s t).played = s.played ++ [t] ∧
    (TTSQueue.speak s t).queue = s.queue := by
  rw [speak_unlocked_eq hu hv]
  exact ⟨rfl, rfl⟩

theorem processQueue_conserve {s : TTSQueue} (hu : s.audioUnlocked = true)
    (hv : s.voicesLoaded = true) :
    (TTSQueue.processQueue s).played ++ (TTSQueue.processQueue s).queue =
      s.played ++ s.queue := by
  cases hsp : s.isSpeaking with
  | true => rw [processQueue_speaking hsp]
  | false =>
    cases hq : s.queue with
    | nil => rw [processQueue_idle_nil hsp hq, hq]
    | cons a q =>
      rw [processQueue_idle_cons hsp hq]
      have h1 := speak_conserve (s := { s with queue := q }) hu hv a
      rw [h1.1, h1.2]
      show s.played ++ [a] ++ q = s.played ++ (a :: q)
      simp

theorem enqueue_conserve {s : TTSQueue} (hu : s.audioUnlocked = true)
    (hv : s.voicesLoaded = true) (t : List Char) :
    (TTSQueue.enqueue s t).played ++ (TTSQueue.enqueue s t).queue =
      s.played ++ s.queue ++ (if trimL t = [] then [] else [trimL t]) := by
  by_cases h : trimL t = []
  · rw [enqueue_trim_nil h, if_pos h]
    simp
  · rw [enqueue_eq h, if_neg h]
    rw [processQueue_conserve
      (s := { s with queue := s.queue ++ [trimL t] }) hu hv]
    show s.played ++ (s.queue ++ [trimL t]) = _
    simp

theorem handleEnd_conserve {s : TTSQueue} (hu : s.audioUnlocked = true)
    (hv : s.voicesLoaded = true) :
    (TTSQueue.handleUtteranceEnd s).played ++
      (TTSQueue.handleUtteranceEnd s).queue = s.played ++ s.queue := by
  unfold TTSQueue.handleUtteranceEnd
  exact processQueue_conserve
    (s := { s with isSpeaking := false, currentUtterance := none }) hu hv

theorem handleError_conserve {s : TTSQueue} (hu : s.audioUnlocked = true)
    (hv : s.voicesLoaded = true) :
    (TTSQueue.handleUtteranceError s).played ++
      (TTSQueue.handleUtteranceError s).queue = s.played ++ s.queue := by
  unfold TTSQueue.handleUtteranceError
  exact processQueue_conserve
    (s := { s with isSpeaking := false, currentUtterance := none }) hu hv

theorem stepEv_conserve {s : TTSQueue} (hu : s.audioUnlocked = true)
    (hv : s.voicesLoaded = true) {e : Ev} (he : isPreempt e = false) :
    (stepEv s e).played ++ (stepEv s e).queue =
      s.played ++ s.queue ++ arrivals [e] := by
  cases e with
  | enqueue t =>
    show (TTSQueue.enqueue s t).played ++ (TTSQueue.enqueue s t).queue = _
    rw [enqueue_conserve hu hv t]
    simp [arrivals]
  | utStart =>
    show (TTSQueue.onStart s).played ++ (TTSQueue.onStart s).queue = _
    cases hin : s.synthInflight with
    | none => rw [onStart_none hin]; simp [arrivals]
    | some u => rw [onStart_some hin]; simp [arrivals]
  | utEnd =>
    cases hin : s.synthInflight with
    | none => rw [stepEv_utEnd_none hin]; simp [arrivals]
    | some u =>
      rw [stepEv_utEnd_some hin]
      rw [handleEnd_conserve (s := { s with synthInflight := none }) hu hv]
      show s.played ++ s.queue = s.played ++ s.queue ++ arrivals [Ev.utEnd]
      simp [arrivals]
  | utError =>
    cases hin : s.synthInflight with
    | none => rw [stepEv_utError_none hin]; simp [arrivals]
    | some u =>
      rw [stepEv_utError_some hin]
      rw [handleError_conserve (s := { s with synthInflight := none }) hu hv]
      show s.played ++ s.queue = s.played ++ s.queue ++ arrivals [Ev.utError]
      simp [arrivals]
  | stop => simp [isPreempt] at he
  | clearQueue => simp [isPreempt] at he
  | hazard t => simp [isPreempt] at he

theorem inv_speak {s : TTSQueue} (h : s.isSpeaking = false)
    (t : List Char) : TTSQueue.inv (TTSQueue.speak s t) := by
  intro hsp
  have hf : (TTSQueue.speak s t).isSpeaking = false :=
    ((speak_proj s t).2.2.1).trans h
  rw [hf] at hsp
  exact (Bool.false_ne_true hsp).elim

theorem inv_processQueue {s : TTSQueue} (h : TTSQueue.inv s) :
    TTSQueue.inv (TTSQueue.processQueue s) := by
  cases hsp : s.isSpeaking with
  | true => rw [processQueue_speaking hsp]; exact h
  | false =>
    cases hq : s.queue with
    | nil => rw [processQueue_idle_nil hsp hq]; exact h
    | cons a q2 =>
      rw [processQueue_idle_cons hsp hq]
      exact inv_speak (s := { s with queue := q2 }) hsp a

theorem inv_enqueue {s : TTSQueue} (h : TTSQueue.inv s) (t : List Char) :
    TTSQueue.inv (TTSQueue.enqueue s t) := by
  by_cases hb : trimL t = []
  · rw [enqueue_trim_nil hb]; exact h
  · rw [enqueue_eq hb]
    exact inv_processQueue h

theorem inv_stop (s : TTSQueue) : TTSQueue.inv (TTSQueue.stop s) :=
  fun h => nomatch h

theorem inv_handleEnd (s : TTSQueue) :
    TTSQueue.inv (TTSQueue.handleUtteranceEnd s) := by
  unfold TTSQueue.handleUtteranceEnd
  apply inv_processQueue
  intro h
  exact (Bool.noConfusion h : False).elim

theorem inv_handleError (s : TTSQueue) :
    TTSQueue.inv (TTSQueue.handleUtteranceError s) := by
  unfold TTSQueue.handleUtteranceError
  apply inv_processQueue
  intro h
  exact (Bool.noConfusion h : False).elim

theorem trim_warning_ne (t : List Char) : trimL (warningText t) ≠ [] := by
  have hW : 'W' ∈ warningText t := by
    unfold warningText
    exact List.mem_append_left _ (by decide)
  exact trimL_ne_nil_of_mem hW (by decide)

/-- C3, no overlapping speech: the scheduler consistency invariant — when
an utterance is marked speaking, the platform holds exactly that one
utterance — is preserved by every event and holds in the idle initial
state; and `enqueue` called while `Speaking` only appends the trimmed
text to the queue, changing nothing else: no utterance is submitted to
the platform and no playback is triggered. -/
theorem c3_no_overlap :
    (∀ (s : TTSQueue) (e : Ev), TTSQueue.inv s → TTSQueue.inv (stepEv s e)) ∧
    TTSQueue.inv exIdle ∧
    (∀ (s : TTSQueue) (t : List Char), s.isSpeaking = true →
      stepEv s (Ev.enqueue t) =
        { s with queue :=
            s.queue ++ (if trimL t = [] then [] else [trimL t]) }) := by
  refine ⟨?_, ?_, ?_⟩
  · intro s e hinv
    cases e with
    | enqueue t => exact inv_enqueue hinv t
    | utStart =>
      show TTSQueue.inv (TTSQueue.onStart s)
      cases hin : s.synthInflight with
      | none => rw [onStart_none hin]; exact hinv
      | some u =>
        rw [onStart_some hin]
        intro _
        exact hin
    | utEnd =>
      cases hin : s.synthInflight with
      | none => rw [stepEv_utEnd_none hin]; exact hinv
      | some u =>
        rw [stepEv_utEnd_some hin]
        exact inv_handleEnd _
    | utError =>
      cases hin : s.synthInflight with
      | none => rw [stepEv_utError_none hin]; exact hinv
      | some u =>
        rw [stepEv_utError_some hin]
        exact inv_handleError _
    | stop => exact inv_stop s
    | clearQueue => intro h; exact hinv h
    | hazard t => exact inv_enqueue (inv_stop s) _
  · intro h
    exact (Bool.noConfusion h : False).elim
  · intro s t hsp
    show TTSQueue.enqueue s t = _
    by_cases hb : trimL t = []
    · rw [enqueue_trim_nil hb, if_pos hb, List.append_nil]
    · rw [enqueue_eq hb, if_neg hb,
        processQueue_speaking
          (s := { s with queue := s.queue ++ [trimL t] }) hsp]

theorem c3_witness : TTSQueue.inv (stepEv exQ (Ev.enqueue (chars "S4"))) :=
  c3_no_overlap.1 exQ (Ev.enqueue (chars "S4")) (fun _ => rfl)

theorem arrivals_cons (e : Ev) (es : List Ev) :
    arrivals (e :: es) = arrivals [e] ++ arrivals es := by
  cases e <;> simp [arrivals]

/-- C4, FIFO order: over any event sequence without stop, clearQueue or
hazard events, the playback-attempt trace followed by the pending queue
is exactly the prior trace and queue followed by the enqueued (trimmed,
non-empty) texts in arrival order — so playback attempts happen in
exactly the order sentences were enqueued; and the segmenter emits
sentences in the same relative order as the source text (its emission
stream equals the left-to-right scan of the concatenated input). -/
theorem c4_fifo_order :
    (∀ (s : TTSQueue) (evs : List Ev), s.audioUnlocked = true →
      s.voicesLoaded = true → evs.all (fun e => !isPreempt e) = true →
      (runEvents s evs).played ++ (runEvents s evs).queue =
        s.played ++ s.queue ++ arrivals evs) ∧
    (∀ chunks : List (List Char),
      (runChunks initSB chunks).2 = (scanText chunks.flatten).2) := by
  constructor
  · intro s evs
    induction evs generalizing s with
    | nil =>
      intro _ _ _
      simp [runEvents, arrivals]
    | cons e es ih =>
      intro hu hv hall
      simp only [List.all_cons, Bool.and_eq_true] at hall
      have he : isPreempt e = false := by
        cases hbe : isPreempt e
        · rfl
        · rw [hbe] at hall; simp at hall
      show (runEvents (stepEv s e) es).played ++
        (runEvents (stepEv s e) es).queue = _
      have hflags := stepEv_flags s e
      rw [ih (stepEv s e) (hflags.1.trans hu) (hflags.2.trans hv) hall.2]
      rw [stepEv_conserve hu hv he]
      conv_rhs => rw [arrivals_cons]
      simp [List.append_assoc]
  · intro chunks
    exact (run_out_eq chunks).1

theorem c4_witness :
    (runEvents exIdle [Ev.enqueue (chars "S1"), Ev.utStart,
        Ev.enqueue (chars "S2"), Ev.enqueue (chars "S3")]).played ++
      (runEvents exIdle [Ev.enqueue (chars "S1"), Ev.utStart,
        Ev.enqueue (chars "S2"), Ev.enqueue (chars "S3")]).queue =
      exIdle.played ++ exIdle.queue ++
        arrivals [Ev.enqueue (chars "S1"), Ev.utStart,
          Ev.enqueue (chars "S2"), Ev.enqueue (chars "S3")] :=
  c4_fifo_order.1 exIdle
    [Ev.enqueue (chars "S1"), Ev.utStart, Ev.enqueue (chars "S2"),
      Ev.enqueue (chars "S3")] rfl rfl (by decide)

/-- C5, hazard preemption: with S1 in flight and speaking and S2, S3
queued (audio unlocked, voices loaded), the app-level hazard reaction
cancels S1's playback (the in-flight platform utterance is replaced),
discards S2 and S3 (the queue is emptied), resets the segmenter's
pending buffer, and submits the warning-first hazard text as the next
and only playback attempt, with an empty queue behind it. -/
theorem c5_hazard_preemption (q : TTSQueue) (sb : SentenceBuffer)
    (s1 s2 s3 t : List Char) (hu : q.audioUnlocked = true)
    (hv : q.voicesLoaded = true) (hsp : q.isSpeaking = true)
    (hin : q.synthInflight = some s1) (hq : q.queue = [s2, s3]) :
    onHazard q sb t =
      ({ q with queue := [], isSpeaking := false, currentUtterance := none
              , synthPaused := false
              , synthInflight := some (trimL (warningText t))
              , played := q.played ++ [trimL (warningText t)] }, ⟨[]⟩) := by
  obtain ⟨qf, isf, cuf, auf, vlf, upf, sif, spf, plf, dff⟩ := q
  have hu' : auf = true := hu
  subst hu'
  have hv' : vlf = true := hv
  subst hv'
  have hq' : qf = [s2, s3] := hq
  subst hq'
  unfold onHazard TTSQueue.stop TTSQueue.enqueue SentenceBuffer.reset
  rw [if_neg (trim_warning_ne t)]
  rfl

theorem c5_witness :
    onHazard exQ ⟨chars "pending text"⟩ (chars "pothole ahead") =
      ({ exQ with queue := [], isSpeaking := false, currentUtterance := none
                , synthPaused := false
                , synthInflight :=
                    some (trimL (warningText (chars "pothole ahead")))
                , played := exQ.played ++
                    [trimL (warningText (chars "pothole ahead"))] }, ⟨[]⟩) :=
  c5_hazard_preemption exQ ⟨chars "pending text"⟩ (chars "S1") (chars "S2")
    (chars "S3") (chars "pothole ahead") rfl rfl rfl rfl rfl

/-- C6, error resilience: a platform synthesis error on the in-flight
utterance (audio unlocked, voices loaded) returns the scheduler to idle
and immediately processes the queue: with a next item queued, that item
is submitted to the platform at once (nothing is stuck, the attempt is
recorded); with an empty queue, the scheduler simply becomes idle.  The
error handler is total — the error is absorbed, never propagated. -/
theorem c6_error_resilience (s : TTSQueue) (u nxt : List Char)
    (rest : List (List Char)) (hu : s.audioUnlocked = true)
    (hv : s.voicesLoaded = true) (hin : s.synthInflight = some u) :
    (s.queue = nxt :: rest →
      stepEv s Ev.utError =
        { s with synthInflight := some nxt, synthPaused := false
               , isSpeaking := false, currentUtterance := none, queue := rest
               , played := s.played ++ [nxt] }) ∧
    (s.queue = [] →
      stepEv s Ev.utError =
        { s with synthInflight := none, isSpeaking := false
               , currentUtterance := none }) := by
  obtain ⟨qf, isf, cuf, auf, vlf, upf, sif, spf, plf, dff⟩ := s
  have hu' : auf = true := hu
  subst hu'
  have hv' : vlf = true := hv
  subst hv'
  have hin' : sif = some u := hin
  subst hin'
  constructor
  · intro hq
    have hq' : qf = nxt :: rest := hq
    subst hq'
    rfl
  · intro hq
    have hq' : qf = [] := hq
    subst hq'
    rfl

theorem c6_witness :
    stepEv exQ Ev.utError =
      { exQ with synthInflight := some (chars "S2"), synthPaused := false
               , isSpeaking := false, currentUtterance := none
               , queue := [chars "S3"]
               , played := exQ.played ++ [chars "S2"] } :=
  (c6_error_resilience exQ (chars "S1") (chars "S2") [chars "S3"]
    rfl rfl rfl).1 rfl

/-- C7, audio unlock: both outcomes of the placeholder utterance — the
onend and the onerror handler — set `audioUnlocked` and resolve the
promise; once the flag is set, a further `unlockAudio()` call is a no-op
that resolves immediately without speaking anything, and no later event
ever clears the flag. -/
theorem c7_unlock_audio (s : TTSQueue) :
    ((TTSQueue.unlockOnEnd s).1.audioUnlocked = true ∧
      (TTSQueue.unlockOnEnd s).2 = true) ∧
    ((TTSQueue.unlockOnError s).1.audioUnlocked = true ∧
      (TTSQueue.unlockOnError s).2 = true) ∧
    (s.audioUnlocked = true →
      TTSQueue.unlockAudio s = (s, true, false) ∧
      ∀ e : Ev, (stepEv s e).audioUnlocked = true) := by
  refine ⟨⟨rfl, rfl⟩, ⟨rfl, rfl⟩, ?_⟩
  intro hu
  constructor
  · unfold TTSQueue.unlockAudio
    rw [hu]
    rfl
  · intro e
    rw [(stepEv_flags s e).1]
    exact hu

theorem c7_witness : TTSQueue.unlockAudio exIdle = (exIdle, true, false) :=
  ((c7_unlock_audio exIdle).2.2 rfl).1

/-- C8, stop versus clearQueue: `stop()` empties the queue, cancels the
in-flight platform utterance, resets to idle (isSpeaking false,
currentUtterance cleared) and resumes a paused engine, while leaving the
unlock/voices flags and the playback trace alone; `clearQueue()` empties
only the pending queue — the speaking state, current utterance,
in-flight platform utterance, audioUnlocked, voicesLoaded and the
playback trace are all left unchanged. -/
theorem c8_stop_vs_clear (s : TTSQueue) :
    TTSQueue.stop s =
      { s with queue := [], isSpeaking := false, currentUtterance := none
             , synthInflight := none, synthPaused := false } ∧
    TTSQueue.clearQueue s = { s with queue := [] } ∧
    (TTSQueue.clearQueue s).isSpeaking = s.isSpeaking ∧
    (TTSQueue.clearQueue s).currentUtterance = s.currentUtterance ∧
    (TTSQueue.clearQueue s).synthInflight = s.synthInflight ∧
    (TTSQueue.clearQueue s).synthPaused = s.synthPaused ∧
    (TTSQueue.clearQueue s).audioUnlocked = s.audioUnlocked ∧
    (TTSQueue.clearQueue s).voicesLoaded = s.voicesLoaded ∧
    (TTSQueue.clearQueue s).played = s.played ∧
    (TTSQueue.stop s).audioUnlocked = s.audioUnlocked ∧
    (TTSQueue.stop s).voicesLoaded = s.voicesLoaded :=
  ⟨rfl, rfl, rfl, rfl, rfl, rfl, rfl, rfl, rfl, rfl, rfl⟩

theorem c9_witness : (SentenceBuffer.flush ⟨chars "hi"⟩).1.buffer = [] :=
  (c9_idempotent_flush ⟨chars "hi"⟩).2.2 (by decide)
